import Mathlib

/-!
# Verification of pibsolver.py (particle-in-a-box Schrödinger solver)

Shallow embedding of the numerical core of `src/particleinabox.py`:
input corrections, quadrature grid, basis functions, kinetic diagonal,
Simpson-rule potential matrix with mirrored lower triangle, and the
eigensolver contract.  Machine reals are modelled by `ℝ`; the script's
integer inputs by `ℤ`.
-/

namespace PIB

open Finset

noncomputable section

/-! ## Input corrections (lines 125-143 of the script) -/

/-- Corrected lower bound: `if xmax==xmin: xmax = xmin+1` leaves `xmin`
unchanged; `elif xmax<xmin: xmin,xmax = xmax,xmin` swaps. -/
def corrXmin (xmin xmax : ℝ) : ℝ :=
  if xmax = xmin then xmin else if xmax < xmin then xmax else xmin

/-- Corrected upper bound. -/
def corrXmax (xmin xmax : ℝ) : ℝ :=
  if xmax = xmin then xmin + 1 else if xmax < xmin then xmin else xmax

/-- `ngrid = max(ngrid,3); if not ngrid%2: ngrid += 1`. -/
def corrNgrid (ngrid : ℤ) : ℤ :=
  let m := max ngrid 3
  if m % 2 = 0 then m + 1 else m

/-- The corrected grid size as a natural number. -/
def corrNgridN (ngrid : ℤ) : ℕ := (corrNgrid ngrid).toNat

/-- `nbasis = max(1,nbasis)`. -/
def corrNbasis (nbasis : ℤ) : ℤ := max 1 nbasis

/-- The corrected basis size as a natural number. -/
def corrNbasisN (nbasis : ℤ) : ℕ := (corrNbasis nbasis).toNat

/-! ## Grid and basis functions (lines 130-149) -/

/-- `x = numpy.linspace(xmin,xmax,ngrid)`: node `k` of an `n`-point evenly
spaced grid from `a` to `b` inclusive, `x[k] = a + k*(b-a)/(n-1)`. -/
def grid (a b : ℝ) (n : ℕ) (k : ℕ) : ℝ := a + k * ((b - a) / ((n : ℝ) - 1))

/-- Box width `L = xmax - xmin` (after correction). -/
def boxL (a b : ℝ) : ℝ := b - a

/-- Module-level normalization constant `tl = numpy.sqrt(2./L)`. -/
def tl (a b : ℝ) : ℝ := Real.sqrt (2 / boxL a b)

/-- Module-level factor `pixl = numpy.pi/L`. -/
def pixl (a b : ℝ) : ℝ := Real.pi / boxL a b

/-- `def pib(x,n,L): return tl*math.sin(n*x*pixl)` — the third argument `L`
does not occur in the body; the module-level `tl` and `pixl` are used. -/
def pib (a b : ℝ) (x n L : ℝ) : ℝ := tl a b * Real.sin (n * x * pixl a b)

/-! ## scipy.integrate.simps (as called on line 177)

`sp.integrate.simps(y, x)` on an odd number `2*m+1` of samples applies, on
each consecutive interval pair, the generalized Simpson formula
`(h0+h1)/6 * (y0*(2 - h1/h0) + y1*(h0+h1)^2/(h0*h1) + y2*(2 - h0/h1))`
with `h0, h1` the two node spacings, and sums the pair contributions. -/

/-- One interval pair of scipy's Simpson rule, pairs indexed by `q`. -/
def simpsPair (y x : ℕ → ℝ) (q : ℕ) : ℝ :=
  let h0 := x (2 * q + 1) - x (2 * q)
  let h1 := x (2 * q + 2) - x (2 * q + 1)
  (h0 + h1) / 6 *
    ((2 - h1 / h0) * y (2 * q) + ((h0 + h1) ^ 2 / (h0 * h1)) * y (2 * q + 1) +
      (2 - h0 / h1) * y (2 * q + 2))

/-- scipy's composite Simpson value on `2*m+1` samples `y` at nodes `x`. -/
def scipySimps (m : ℕ) (y x : ℕ → ℝ) : ℝ := ∑ q in range m, simpsPair y x q

/-- The spec's description of the quadrature weights on `2*m+1` nodes:
`1,4,2,4,…,4,1`. -/
def simpsonWeight (m k : ℕ) : ℝ :=
  if k = 0 ∨ k = 2 * m then 1 else if k % 2 = 1 then 4 else 2

/-- The spec's composite Simpson rule: weights `1,4,2,…,4,1` scaled by
`dx/3`, applied to the samples `y` on a `2*m+1`-node grid of spacing `dx`. -/
def specSimpson (m : ℕ) (dx : ℝ) (y : ℕ → ℝ) : ℝ :=
  dx / 3 * ∑ k in range (2 * m + 1), simpsonWeight m k * y k

/-! ## Hamiltonian assembly (lines 152-179) -/

/-- The quadrature samples for basis pair `(i,j)` (0-based):
`y[k] = pib(x[k]-xmin, i+1, L) * V(x[k]) * pib(x[k]-xmin, j+1, L)`. -/
def potSample (a b : ℝ) (n : ℕ) (V : ℝ → ℝ) (i j : ℕ) (k : ℕ) : ℝ :=
  pib a b (grid a b n k - a) ((i : ℝ) + 1) (boxL a b) * V (grid a b n k) *
    pib a b (grid a b n k - a) ((j : ℝ) + 1) (boxL a b)

/-- The upper-triangle quadrature value `sp.integrate.simps(y, x)` for pair
`(i,j)`, with the grid of `2*m+1` nodes. -/
def potS (a b : ℝ) (m : ℕ) (V : ℝ → ℝ) (i j : ℕ) : ℝ :=
  scipySimps m (potSample a b (2 * m + 1) V i j) (grid a b (2 * m + 1))

/-- The kinetic loop `for i in range(0,nbasis): H[i,i] += kepf*(i+1.)*(i+1.)`
applied to matrix `M`, first argument = number of iterations done; `d i` is
the value added at `(i,i)`.  The scalar type is abstract, so the same loop is
used for the real-valued and the finite/non-finite-valued semantics. -/
def kineticLoop {α : Type} [Add α] (d : ℕ → α) : ℕ → (ℕ → ℕ → α) → ℕ → ℕ → α
  | 0, M => M
  | i + 1, M => fun a b =>
      if a = i ∧ b = i then kineticLoop d i M a b + d i else kineticLoop d i M a b

/-- One outer iteration (row `i`) of the potential double loop:
for `j >= i` add the quadrature value `S i j`; for `j < i` add the mirror
`H[j,i]` read from the matrix built so far. -/
def potRow {α : Type} [Add α] (S : ℕ → ℕ → α) (nb i : ℕ) (M : ℕ → ℕ → α) :
    ℕ → ℕ → α :=
  fun a b =>
    if a = i ∧ b < nb then (if i ≤ b then M a b + S i b else M a b + M b a)
    else M a b

/-- The potential double loop, first argument = number of rows done. -/
def potLoop {α : Type} [Add α] (S : ℕ → ℕ → α) (nb : ℕ) :
    ℕ → (ℕ → ℕ → α) → ℕ → ℕ → α
  | 0, M => M
  | i + 1, M => potRow S nb i (potLoop S nb i M)

/-- The assembled Hamiltonian: zeros, then the kinetic loop with increments
`kepf*(i+1.)*(i+1.)`, then the potential loop, with `nb` basis functions and
kinetic prefactor `C`. -/
def Hmat (C : ℝ) (S : ℕ → ℕ → ℝ) (nb : ℕ) : ℕ → ℕ → ℝ :=
  potLoop S nb nb
    (kineticLoop (fun i => C * ((i : ℝ) + 1) * ((i : ℝ) + 1)) nb fun _ _ => 0)

/-- The matrix the script diagonalizes, from raw inputs: corrections are
applied, the grid and quadrature are built, and `Hmat` is assembled. -/
def assemble (xmin xmax : ℝ) (ngrid nbasis : ℤ) (C : ℝ) (V : ℝ → ℝ) :
    ℕ → ℕ → ℝ :=
  Hmat C
    (potS (corrXmin xmin xmax) (corrXmax xmin xmax) ((corrNgridN ngrid - 1) / 2) V)
    (corrNbasisN nbasis)

/-- `kepf` as computed on line 164 from the script's variables and the
physical constants `hbar`, `h`, `c` (taken from `scipy.constants`). -/
def kepf (hbar h c mass L : ℝ) : ℝ :=
  hbar * hbar * Real.pi ^ 2 / (2 * mass * (L * 1e-10) * (L * 1e-10) * h * c * 100)

/-! ## The eigensolver contract (line 183)

`sp.linalg.eigh` is external library code, not part of this repository.
Modelled from the spec: the EigenSolver returns eigenvalues in ascending
order together with an eigenvector matrix whose column `j` (entries
`evecs k j`) is a unit-norm eigenvector for eigenvalue `j`, columns mutually
orthogonal. -/

/-- Modelled from the spec: the contract of the symmetric eigensolver
`scipy.linalg.eigh` (ascending eigenvalues, orthonormal eigenvector
columns, each column an eigenvector of `H`). -/
def IsEigenSolution (n : ℕ) (H : ℕ → ℕ → ℝ) (evals : ℕ → ℝ)
    (evecs : ℕ → ℕ → ℝ) : Prop :=
  (∀ j j', j < j' → j' < n → evals j ≤ evals j') ∧
  (∀ j, j < n → ∑ k ∈ range n, evecs k j * evecs k j = 1) ∧
  (∀ j j', j < n → j' < n → j ≠ j' →
    ∑ k ∈ range n, evecs k j * evecs k j' = 0) ∧
  (∀ j, j < n → ∀ i, i < n →
    ∑ k ∈ range n, H i k * evecs k j = evals j * evecs i j)

/-- The real-valued pipeline: corrections, grid, quadrature, assembly, then
the eigensolver (passed in as the behaviour of `scipy.linalg.eigh`). -/
def runR (solver : (ℕ → ℕ → ℝ) → (ℕ → ℝ) × (ℕ → ℕ → ℝ))
    (xmin xmax : ℝ) (ngrid nbasis : ℤ) (C : ℝ) (V : ℝ → ℝ) :
    (ℕ → ℝ) × (ℕ → ℕ → ℝ) :=
  solver (assemble xmin xmax ngrid nbasis C V)

/-! ## Finite/non-finite value semantics (for the error-handling claim)

IEEE floats are modelled as either a finite real or a non-finite value
(`nan`/`inf`); any arithmetic operation touching a non-finite value is
non-finite (in IEEE, an operation on a `nan` yields `nan`, and operations
on infinities yield infinities or `nan`). -/

/-- A machine float: a finite real or a non-finite value. -/
inductive FV : Type where
  | fin : ℝ → FV
  | nonfin : FV

/-- Addition: finite on finite values, otherwise non-finite. -/
def FV.add : FV → FV → FV
  | FV.fin a, FV.fin b => FV.fin (a + b)
  | _, _ => FV.nonfin

/-- Multiplication: finite on finite values, otherwise non-finite. -/
def FV.mul : FV → FV → FV
  | FV.fin a, FV.fin b => FV.fin (a * b)
  | _, _ => FV.nonfin

instance : Add FV := ⟨FV.add⟩

instance : Mul FV := ⟨FV.mul⟩

/-- A float is finite when it carries a real value. -/
def FV.IsFinite : FV → Prop
  | FV.fin _ => True
  | FV.nonfin => False

/-- The quadrature samples of the script in float semantics:
`y = numpy.zeros(ngrid)` then `y[k] += pib(p-xmin,i+1.,L)*V(p)*pib(p-xmin,j+1.,L)`;
the potential `V` may return a non-finite float. -/
def potSampleFV (a b : ℝ) (n : ℕ) (V : ℝ → FV) (i j : ℕ) (k : ℕ) : FV :=
  FV.fin 0 +
    FV.fin (pib a b (grid a b n k - a) ((i : ℝ) + 1) (boxL a b)) * V (grid a b n k) *
      FV.fin (pib a b (grid a b n k - a) ((j : ℝ) + 1) (boxL a b))

/-- One interval pair of scipy's Simpson rule in float semantics; the node
coordinates are the finite grid reals. -/
def simpsPairFV (y : ℕ → FV) (x : ℕ → ℝ) (q : ℕ) : FV :=
  let h0 := x (2 * q + 1) - x (2 * q)
  let h1 := x (2 * q + 2) - x (2 * q + 1)
  FV.fin ((h0 + h1) / 6) *
    (FV.fin (2 - h1 / h0) * y (2 * q) + FV.fin ((h0 + h1) ^ 2 / (h0 * h1)) * y (2 * q + 1) +
      FV.fin (2 - h0 / h1) * y (2 * q + 2))

/-- Left fold of float addition over `q = 0, …, m-1`, starting from `0.0`. -/
def FV.sumRange (f : ℕ → FV) : ℕ → FV
  | 0 => FV.fin 0
  | m + 1 => FV.sumRange f m + f m

/-- scipy's composite Simpson value in float semantics. -/
def scipySimpsFV (m : ℕ) (y : ℕ → FV) (x : ℕ → ℝ) : FV :=
  FV.sumRange (simpsPairFV y x) m

/-- The upper-triangle quadrature value for pair `(i,j)` in float
semantics. -/
def potSFV (a b : ℝ) (m : ℕ) (V : ℝ → FV) (i j : ℕ) : FV :=
  scipySimpsFV m (potSampleFV a b (2 * m + 1) V i j) (grid a b (2 * m + 1))

/-- The assembled Hamiltonian in float semantics. -/
def HmatFV (C : ℝ) (S : ℕ → ℕ → FV) (nb : ℕ) : ℕ → ℕ → FV :=
  potLoop S nb nb
    (kineticLoop (fun i => FV.fin (C * ((i : ℝ) + 1) * ((i : ℝ) + 1))) nb
      fun _ _ => FV.fin 0)

/-- The matrix the script diagonalizes, in float semantics. -/
def assembleFV (xmin xmax : ℝ) (ngrid nbasis : ℤ) (C : ℝ) (V : ℝ → FV) :
    ℕ → ℕ → FV :=
  HmatFV C
    (potSFV (corrXmin xmin xmax) (corrXmax xmin xmax) ((corrNgridN ngrid - 1) / 2) V)
    (corrNbasisN nbasis)

/-- The spec's error taxonomy for numerical failures. -/
inductive NumericalError : Type where
  | nonFiniteInput : NumericalError
  | noConvergence : NumericalError

/-- The run's output: the eigenvalues, the eigenvector matrix, and a marker
standing for the text file and plots that the script writes afterwards. -/
structure RunOutput : Type where
  evalues : ℕ → ℝ
  evectors : ℕ → ℕ → ℝ
  filesWritten : Bool

/-- Modelled from the spec: a fallible eigensolver (the behaviour of
`scipy.linalg.eigh`, which is external library code). -/
def SolverFV : Type :=
  (ℕ → ℕ → FV) → Except NumericalError ((ℕ → ℝ) × (ℕ → ℕ → ℝ))

/-- Modelled from the spec: the eigensolver fails with a `NumericalError`
if its `nb × nb` input contains a non-finite entry. -/
def ChecksFinite (nb : ℕ) (solver : SolverFV) : Prop :=
  ∀ M : ℕ → ℕ → FV,
    (∃ i j, i < nb ∧ j < nb ∧ ¬ (M i j).IsFinite) →
    solver M = Except.error NumericalError.nonFiniteInput

/-- The full pipeline in float semantics: assembly, eigensolver, and then
(only on success) the output stage. -/
def runFV (solver : SolverFV) (xmin xmax : ℝ) (ngrid nbasis : ℤ) (C : ℝ)
    (V : ℝ → FV) : Except NumericalError RunOutput :=
  match solver (assembleFV xmin xmax ngrid nbasis C V) with
  | Except.error e => Except.error e
  | Except.ok p => Except.ok ⟨p.1, p.2, true⟩

end

/-! ## Lemmas: input corrections -/

theorem corrXmin_lt_corrXmax (xmin xmax : ℝ) :
    corrXmin xmin xmax < corrXmax xmin xmax := by
  unfold corrXmin corrXmax
  by_cases h1 : xmax = xmin
  · simp [h1]
  · by_cases h2 : xmax < xmin
    · simp [h1, h2]
    · simp only [h1, h2, if_false]
      rcases lt_trichotomy xmax xmin with h | h | h
      · exact absurd h h2
      · exact absurd h h1
      · exact h

theorem corrNgrid_odd (g : ℤ) : Odd (corrNgrid g) := by
  unfold corrNgrid
  by_cases h : max g 3 % 2 = 0
  · simp only [h, if_true]
    exact Int.odd_iff.mpr (by omega)
  · simp only [h, if_false]
    exact Int.odd_iff.mpr (by omega)

theorem corrNgrid_ge_three (g : ℤ) : 3 ≤ corrNgrid g := by
  unfold corrNgrid
  have : (3 : ℤ) ≤ max g 3 := le_max_right g 3
  by_cases h : max g 3 % 2 = 0 <;> simp only [h, if_true, if_false] <;> omega

theorem corrNgridN_odd (g : ℤ) : Odd (corrNgridN g) := by
  obtain ⟨k, hk⟩ := corrNgrid_odd g
  have h3 := corrNgrid_ge_three g
  exact ⟨(corrNgrid g).toNat / 2, by unfold corrNgridN; omega⟩

theorem corrNgridN_ge_three (g : ℤ) : 3 ≤ corrNgridN g := by
  have h3 := corrNgrid_ge_three g
  unfold corrNgridN
  omega

/-- The corrected grid size is `2*m+1` for `m := (corrNgridN g - 1)/2 ≥ 1`. -/
theorem corrNgridN_eq (g : ℤ) :
    corrNgridN g = 2 * ((corrNgridN g - 1) / 2) + 1 ∧ 1 ≤ (corrNgridN g - 1) / 2 := by
  obtain ⟨k, hk⟩ := corrNgridN_odd g
  have h3 := corrNgridN_ge_three g
  omega

theorem corrNbasisN_ge_one (nb : ℤ) : 1 ≤ corrNbasisN nb := by
  unfold corrNbasisN corrNbasis
  omega

/-! ## Lemmas: the grid -/

theorem grid_zero (a b : ℝ) (n : ℕ) : grid a b n 0 = a := by
  simp [grid]

theorem grid_spacing (a b : ℝ) (n : ℕ) (k : ℕ) :
    grid a b n (k + 1) - grid a b n k = (b - a) / ((n : ℝ) - 1) := by
  unfold grid
  push_cast
  ring

theorem grid_last (a b : ℝ) (n : ℕ) (hn : 2 ≤ n) : grid a b n (n - 1) = b := by
  unfold grid
  have h1 : ((n - 1 : ℕ) : ℝ) = (n : ℝ) - 1 := by
    have : (1 : ℕ) ≤ n := by omega
    push_cast [this]
    ring
  have h2 : (n : ℝ) - 1 ≠ 0 := by
    have : (2 : ℝ) ≤ (n : ℝ) := by exact_mod_cast hn
    linarith
  rw [h1]
  field_simp

theorem grid_strictMono (a b : ℝ) (n : ℕ) (hab : a < b) (hn : 2 ≤ n)
    (k l : ℕ) (hkl : k < l) : grid a b n k < grid a b n l := by
  unfold grid
  have hdx : 0 < (b - a) / ((n : ℝ) - 1) := by
    apply div_pos (by linarith)
    have : (2 : ℝ) ≤ (n : ℝ) := by exact_mod_cast hn
    linarith
  have hklR : (k : ℝ) < (l : ℝ) := by exact_mod_cast hkl
  have := mul_lt_mul_of_pos_right hklR hdx
  linarith

/-! ## Lemmas: loop closed forms -/

theorem kineticLoop_closed {α : Type} [Add α] (d : ℕ → α) (t : ℕ)
    (M : ℕ → ℕ → α) (a b : ℕ) :
    kineticLoop d t M a b =
      if a = b ∧ a < t then M a b + d a else M a b := by
  induction t with
  | zero => simp [kineticLoop]
  | succ i ih =>
    show (if a = i ∧ b = i then kineticLoop d i M a b + d i
          else kineticLoop d i M a b) = _
    by_cases hai : a = i ∧ b = i
    · obtain ⟨ha, hb⟩ := hai
      subst ha; subst hb
      rw [ih]
      simp [lt_irrefl, Nat.lt_succ_self]
    · rw [if_neg hai, ih]
      by_cases hab : a = b
      · subst hab
        have hne : a ≠ i := fun h => hai ⟨h, h⟩
        have : (a < i + 1) = (a < i) := by
          apply propext
          constructor
          · intro h; omega
          · intro h; omega
        simp only [this]
      · simp [hab]

theorem potLoop_closed {α : Type} [Add α] (S : ℕ → ℕ → α) (nb : ℕ)
    (M : ℕ → ℕ → α) (t : ℕ) :
    t ≤ nb → ∀ a b,
      potLoop S nb t M a b =
        if a < t ∧ b < nb then
          (if a ≤ b then M a b + S a b else M a b + (M b a + S b a))
        else M a b := by
  induction t with
  | zero => intro _ a b; simp [potLoop]
  | succ i ih =>
    intro ht a b
    have hi : i ≤ nb := by omega
    have IH := ih hi
    show potRow S nb i (potLoop S nb i M) a b = _
    unfold potRow
    by_cases hcase : a = i ∧ b < nb
    · obtain ⟨ha, hb⟩ := hcase
      subst ha
      rw [if_pos ⟨rfl, hb⟩]
      by_cases hib : a ≤ b
      · rw [if_pos hib, IH a b, if_neg (by omega), if_pos ⟨Nat.lt_succ_self a, hb⟩,
          if_pos hib]
      · have hba : b < a := by omega
        rw [if_neg hib, IH a b, if_neg (by omega), IH b a,
          if_pos ⟨hba, by omega⟩, if_pos (by omega), if_pos ⟨Nat.lt_succ_self a, hb⟩,
          if_neg hib]
    · rw [if_neg hcase, IH a b]
      by_cases hb : b < nb
      · have ha : a ≠ i := fun h => hcase ⟨h, hb⟩
        exact (if_congr (by constructor <;> (rintro ⟨h1, h2⟩; exact ⟨by omega, h2⟩))
          rfl rfl).symm
      · rw [if_neg (by tauto), if_neg (by tauto)]

/-! ## Lemmas: scipy's Simpson rule on a uniform grid -/

theorem grid_spacing2 (a b : ℝ) (n : ℕ) (k : ℕ) :
    grid a b n (k + 2) - grid a b n (k + 1) = (b - a) / ((n : ℝ) - 1) := by
  unfold grid
  push_cast
  ring

theorem simpsPair_uniform (a b : ℝ) (n : ℕ) (y : ℕ → ℝ) (q : ℕ)
    (hdx : (b - a) / ((n : ℝ) - 1) ≠ 0) :
    simpsPair y (grid a b n) q =
      (b - a) / ((n : ℝ) - 1) / 3 * (y (2 * q) + 4 * y (2 * q + 1) + y (2 * q + 2)) := by
  have h0 := grid_spacing a b n (2 * q)
  have h1 := grid_spacing2 a b n (2 * q)
  obtain ⟨d, hd⟩ : ∃ d, (b - a) / ((n : ℝ) - 1) = d := ⟨_, rfl⟩
  rw [hd] at h0 h1 hdx ⊢
  unfold simpsPair
  simp only []
  rw [h0, h1]
  field_simp
  ring

theorem simpsonWeight_stable (m k : ℕ) (hk : k < 2 * m) :
    simpsonWeight (m + 1) k = simpsonWeight m k := by
  unfold simpsonWeight
  by_cases h0 : k = 0
  · rw [if_pos (Or.inl h0), if_pos (Or.inl h0)]
  · have h1 : ¬(k = 0 ∨ k = 2 * (m + 1)) := by omega
    have h2 : ¬(k = 0 ∨ k = 2 * m) := by omega
    rw [if_neg h1, if_neg h2]

theorem sum_pairs_eq_weights (y : ℕ → ℝ) (m : ℕ) (hm : 1 ≤ m) :
    ∑ q ∈ range m, (y (2 * q) + 4 * y (2 * q + 1) + y (2 * q + 2)) =
      ∑ k ∈ range (2 * m + 1), simpsonWeight m k * y k := by
  induction m with
  | zero => omega
  | succ m ih =>
    by_cases hm1 : 1 ≤ m
    · have w1 : simpsonWeight m (2 * m) = 1 := by
        unfold simpsonWeight
        rw [if_pos (Or.inr rfl)]
      have w2 : simpsonWeight (m + 1) (2 * m) = 2 := by
        unfold simpsonWeight
        rw [if_neg (by omega), if_neg (by omega)]
      have w3 : simpsonWeight (m + 1) (2 * m + 1) = 4 := by
        unfold simpsonWeight
        rw [if_neg (by omega), if_pos (by omega)]
      have w4 : simpsonWeight (m + 1) (2 * m + 2) = 1 := by
        unfold simpsonWeight
        rw [if_pos (by omega)]
      have e1 : 2 * (m + 1) + 1 = (2 * m + 1) + 1 + 1 := by ring
      rw [sum_range_succ, ih hm1, e1, sum_range_succ, sum_range_succ,
        sum_range_succ, sum_range_succ]
      have hcong : ∑ k ∈ range (2 * m), simpsonWeight m k * y k =
          ∑ k ∈ range (2 * m), simpsonWeight (m + 1) k * y k := by
        apply Finset.sum_congr rfl
        intro k hk
        rw [simpsonWeight_stable m k (mem_range.mp hk)]
      have e2 : (2 * m + 1 : ℕ) + 1 = 2 * m + 2 := rfl
      rw [hcong, w1, w2, e2, w3, w4]
      ring
    · have hm0 : m = 0 := by omega
      subst hm0
      norm_num [sum_range_succ, simpsonWeight]

/-- On the script's uniform grid with an odd number `2*m+1` of nodes,
scipy's Simpson rule coincides with the spec's weighted form
(`1,4,2,…,4,1` scaled by `dx/3`). -/
theorem scipySimps_eq_specSimpson (a b : ℝ) (m : ℕ) (y : ℕ → ℝ)
    (hab : a < b) (hm : 1 ≤ m) :
    scipySimps m y (grid a b (2 * m + 1)) =
      specSimpson m ((b - a) / (2 * (m : ℝ))) y := by
  have he : (((2 * m + 1 : ℕ)) : ℝ) - 1 = 2 * (m : ℝ) := by
    push_cast
    ring
  have hdx : (b - a) / (((2 * m + 1 : ℕ) : ℝ) - 1) ≠ 0 := by
    rw [he]
    apply div_ne_zero (by linarith)
    have : (1 : ℝ) ≤ (m : ℝ) := by exact_mod_cast hm
    linarith
  unfold scipySimps specSimpson
  have hstep : ∀ q ∈ range m, simpsPair y (grid a b (2 * m + 1)) q =
      (b - a) / (((2 * m + 1 : ℕ) : ℝ) - 1) / 3 *
        (y (2 * q) + 4 * y (2 * q + 1) + y (2 * q + 2)) := by
    intro q _
    exact simpsPair_uniform a b (2 * m + 1) y q hdx
  rw [Finset.sum_congr rfl hstep, ← Finset.mul_sum,
    sum_pairs_eq_weights y m hm, he]

/-- The assembled Hamiltonian, entrywise: kinetic diagonal plus the
quadrature value of the ordered pair. -/
theorem Hmat_apply (C : ℝ) (S : ℕ → ℕ → ℝ) (nb : ℕ) (a b : ℕ)
    (ha : a < nb) (hb : b < nb) :
    Hmat C S nb a b =
      (if a = b then C * ((a : ℝ) + 1) * ((a : ℝ) + 1) else 0) +
        (if a ≤ b then S a b else S b a) := by
  unfold Hmat
  rw [potLoop_closed _ _ _ nb le_rfl a b, if_pos ⟨ha, hb⟩, kineticLoop_closed,
    kineticLoop_closed]
  by_cases h : a = b
  · subst h
    simp [ha]
  · have h' : ¬ b = a := fun hc => h hc.symm
    by_cases hab : a ≤ b
    · simp [hab, h]
    · simp [hab, h, h']

/-! ## Lemmas: vanishing potential -/

theorem potSample_zeroV (a b : ℝ) (n : ℕ) (i j k : ℕ) :
    potSample a b n (fun _ => 0) i j k = 0 := by
  unfold potSample
  ring

theorem scipySimps_of_zero (m : ℕ) (y x : ℕ → ℝ) (hy : ∀ k, y k = 0) :
    scipySimps m y x = 0 := by
  unfold scipySimps
  apply Finset.sum_eq_zero
  intro q _
  unfold simpsPair
  simp only [hy]
  ring

theorem potS_zeroV (a b : ℝ) (m : ℕ) (i j : ℕ) :
    potS a b m (fun _ => 0) i j = 0 :=
  scipySimps_of_zero m _ _ (fun k => potSample_zeroV a b (2 * m + 1) i j k)

/-! ## Lemmas: eigenvalues of a diagonal matrix under the solver contract -/

/-- Any output satisfying the eigensolver contract on a matrix that is
diagonal (on the `n × n` block) with strictly increasing diagonal returns
exactly that diagonal as its eigenvalue sequence. -/
theorem eigen_of_diagonal (n : ℕ) (H : ℕ → ℕ → ℝ) (d : ℕ → ℝ)
    (hH : ∀ i j, i < n → j < n → H i j = if i = j then d i else 0)
    (hd : ∀ i i', i < i' → i' < n → d i < d i')
    (evals : ℕ → ℝ) (evecs : ℕ → ℕ → ℝ)
    (hsol : IsEigenSolution n H evals evecs) :
    ∀ j, j < n → evals j = d j := by
  obtain ⟨hasc, hnorm, horth, heig⟩ := hsol
  have hA : ∀ j, j < n → ∀ i, i < n →
      d i * evecs i j = evals j * evecs i j := by
    intro j hj i hi
    have h1 := heig j hj i hi
    have h2 : ∑ k ∈ range n, H i k * evecs k j = d i * evecs i j := by
      have hc : ∀ k ∈ range n, H i k * evecs k j =
          if i = k then d i * evecs k j else 0 := by
        intro k hk
        rw [hH i k hi (mem_range.mp hk)]
        by_cases h : i = k <;> simp [h]
      rw [Finset.sum_congr rfl hc,
        Finset.sum_ite_eq (range n) i (fun k => d i * evecs k j),
        if_pos (mem_range.mpr hi)]
    rw [← h2, h1]
  have hB : ∀ j, j < n → ∃ i, i < n ∧ evecs i j ≠ 0 := by
    intro j hj
    by_contra hall
    push_neg at hall
    have hz : ∑ k ∈ range n, evecs k j * evecs k j = 0 := by
      apply Finset.sum_eq_zero
      intro k hk
      rw [hall k (mem_range.mp hk)]
      ring
    rw [hnorm j hj] at hz
    norm_num at hz
  have hC : ∀ j, ∃ i, j < n → (i < n ∧ evecs i j ≠ 0 ∧ evals j = d i) := by
    intro j
    by_cases hj : j < n
    · obtain ⟨i, hi, hne⟩ := hB j hj
      refine ⟨i, fun _ => ⟨hi, hne, ?_⟩⟩
      have h1 := hA j hj i hi
      have h2 : (d i - evals j) * evecs i j = 0 := by
        ring_nf
        linarith
      rcases mul_eq_zero.mp h2 with h | h
      · linarith
      · exact absurd h hne
    · exact ⟨0, fun h => absurd h hj⟩
  choose ι hι using hC
  have hD : ∀ j, j < n → ∀ i', i' < n → i' ≠ ι j → evecs i' j = 0 := by
    intro j hj i' hi' hne
    have h1 := hA j hj i' hi'
    rw [(hι j hj).2.2] at h1
    have h2 : (d i' - d (ι j)) * evecs i' j = 0 := by
      ring_nf
      linarith
    rcases mul_eq_zero.mp h2 with h | h
    · exfalso
      have hlt := (hι j hj).1
      rcases Nat.lt_or_ge i' (ι j) with hlt2 | hge
      · have := hd i' (ι j) hlt2 hlt
        linarith
      · have hgt : ι j < i' := by omega
        have := hd (ι j) i' hgt hi'
        linarith
    · exact h
  have hinj : ∀ j j', j < n → j' < n → j ≠ j' → ι j ≠ ι j' := by
    intro j j' hj hj' hne heq
    have ho := horth j j' hj hj' hne
    have hs : ∑ k ∈ range n, evecs k j * evecs k j' =
        evecs (ι j) j * evecs (ι j) j' := by
      apply Finset.sum_eq_single_of_mem (ι j) (mem_range.mpr (hι j hj).1)
      intro k hk hkne
      rw [hD j hj k (mem_range.mp hk) hkne, zero_mul]
    rw [hs] at ho
    rcases mul_eq_zero.mp ho with h | h
    · exact (hι j hj).2.1 h
    · rw [heq] at h
      exact (hι j' hj').2.1 h
  have hmono : ∀ j j', j < j' → j' < n → ι j < ι j' := by
    intro j j' hlt hj'
    have hj : j < n := by omega
    have hle := hasc j j' hlt hj'
    rw [(hι j hj).2.2, (hι j' hj').2.2] at hle
    have hne := hinj j j' hj hj' (by omega)
    rcases Nat.lt_trichotomy (ι j) (ι j') with h | h | h
    · exact h
    · exact absurd h hne
    · exfalso
      have := hd (ι j') (ι j) h (hι j hj).1
      linarith
  have seq_le : ∀ f : ℕ → ℕ, (∀ p q, p < q → q < n → f p < f q) →
      ∀ j, j < n → j ≤ f j := by
    intro f hf j
    induction j with
    | zero => intro _; exact Nat.zero_le _
    | succ jj ihj =>
      intro hj
      have h1 : jj < n := by omega
      have h2 := hf jj (jj + 1) (Nat.lt_succ_self jj) hj
      have h3 := ihj h1
      omega
  have himg : ∀ i, i < n → ∃ j, j < n ∧ ι j = i := by
    intro i hi
    by_contra hno
    push_neg at hno
    have hmaps : ∀ j ∈ range n, ι j ∈ (range n).erase i := by
      intro j hj
      exact Finset.mem_erase.mpr
        ⟨hno j (mem_range.mp hj), mem_range.mpr (hι j (mem_range.mp hj)).1⟩
    have hinj2 : Set.InjOn ι (range n) := by
      intro p hp q hq hpq
      by_contra hne
      exact hinj p q (mem_range.mp hp) (mem_range.mp hq) hne hpq
    have hcard := Finset.card_le_card_of_injOn ι hmaps hinj2
    rw [Finset.card_erase_of_mem (mem_range.mpr hi), Finset.card_range] at hcard
    omega
  have hκex : ∀ i, ∃ j, i < n → (j < n ∧ ι j = i) := by
    intro i
    by_cases hi : i < n
    · obtain ⟨j, hj⟩ := himg i hi
      exact ⟨j, fun _ => hj⟩
    · exact ⟨0, fun h => absurd h hi⟩
  choose κ hκ using hκex
  have hκmono : ∀ p q, p < q → q < n → κ p < κ q := by
    intro p q hpq hq
    have hp : p < n := by omega
    obtain ⟨hκp, hιp⟩ := hκ p hp
    obtain ⟨hκq, hιq⟩ := hκ q hq
    rcases Nat.lt_trichotomy (κ p) (κ q) with h | h | h
    · exact h
    · exfalso
      rw [h, hιq] at hιp
      omega
    · exfalso
      have := hmono (κ q) (κ p) h hκp
      rw [hιp, hιq] at this
      omega
  intro j hj
  have h1 : j ≤ ι j := seq_le ι hmono j hj
  have hιj : ι j < n := (hι j hj).1
  have h2 : ι j ≤ j := by
    have h3 : ι j ≤ κ (ι j) := seq_le κ hκmono (ι j) hιj
    obtain ⟨hκn, hικ⟩ := hκ (ι j) hιj
    have h4 : κ (ι j) = j := by
      by_contra hne
      exact hinj (κ (ι j)) j hκn hj hne hικ
    omega
  have h5 : ι j = j := by omega
  rw [(hι j hj).2.2, h5]

/-! ## Lemmas: non-finite propagation in float semantics -/

theorem FV.add_def (x y : FV) : x + y = FV.add x y := rfl

theorem FV.mul_def (x y : FV) : x * y = FV.mul x y := rfl

theorem FV.add_not_finite (x y : FV) (h : ¬ x.IsFinite ∨ ¬ y.IsFinite) :
    ¬ (x + y).IsFinite := by
  rw [FV.add_def]
  cases x <;> cases y <;> simp [FV.add, FV.IsFinite] at h ⊢

theorem FV.mul_not_finite (x y : FV) (h : ¬ x.IsFinite ∨ ¬ y.IsFinite) :
    ¬ (x * y).IsFinite := by
  rw [FV.mul_def]
  cases x <;> cases y <;> simp [FV.mul, FV.IsFinite] at h ⊢

theorem FV.sumRange_not_finite (f : ℕ → FV) (m q : ℕ) (hq : q < m)
    (h : ¬ (f q).IsFinite) : ¬ (FV.sumRange f m).IsFinite := by
  induction m with
  | zero => omega
  | succ mm ih =>
    show ¬ (FV.sumRange f mm + f mm).IsFinite
    by_cases hqm : q = mm
    · subst hqm
      exact FV.add_not_finite _ _ (Or.inr h)
    · exact FV.add_not_finite _ _ (Or.inl (ih (by omega)))

theorem potSampleFV_not_finite (a b : ℝ) (n : ℕ) (V : ℝ → FV) (i j k : ℕ)
    (h : ¬ (V (grid a b n k)).IsFinite) :
    ¬ (potSampleFV a b n V i j k).IsFinite := by
  unfold potSampleFV
  apply FV.add_not_finite
  right
  apply FV.mul_not_finite
  left
  apply FV.mul_not_finite
  right
  exact h

theorem simpsPairFV_not_finite (y : ℕ → FV) (x : ℕ → ℝ) (q : ℕ)
    (h : ¬ (y (2 * q)).IsFinite ∨ ¬ (y (2 * q + 1)).IsFinite ∨
      ¬ (y (2 * q + 2)).IsFinite) :
    ¬ (simpsPairFV y x q).IsFinite := by
  unfold simpsPairFV
  simp only []
  apply FV.mul_not_finite
  right
  rcases h with h | h | h
  · apply FV.add_not_finite
    left
    apply FV.add_not_finite
    left
    exact FV.mul_not_finite _ _ (Or.inr h)
  · apply FV.add_not_finite
    left
    apply FV.add_not_finite
    right
    exact FV.mul_not_finite _ _ (Or.inr h)
  · apply FV.add_not_finite
    right
    exact FV.mul_not_finite _ _ (Or.inr h)

theorem potSFV_not_finite (a b : ℝ) (m : ℕ) (V : ℝ → FV) (i j k : ℕ)
    (hm : 1 ≤ m) (hk : k < 2 * m + 1)
    (h : ¬ (V (grid a b (2 * m + 1) k)).IsFinite) :
    ¬ (potSFV a b m V i j).IsFinite := by
  obtain ⟨q, hq, hcase⟩ : ∃ q, q < m ∧ (k = 2 * q ∨ k = 2 * q + 1 ∨ k = 2 * q + 2) := by
    by_cases hk2 : k < 2 * m
    · exact ⟨k / 2, by omega, by omega⟩
    · exact ⟨m - 1, by omega, by omega⟩
  unfold potSFV scipySimpsFV
  apply FV.sumRange_not_finite _ _ q hq
  apply simpsPairFV_not_finite
  rcases hcase with h' | h' | h'
  · left
    rw [← h']
    exact potSampleFV_not_finite a b (2 * m + 1) V i j k h
  · right
    left
    rw [← h']
    exact potSampleFV_not_finite a b (2 * m + 1) V i j k h
  · right
    right
    rw [← h']
    exact potSampleFV_not_finite a b (2 * m + 1) V i j k h

theorem HmatFV_not_finite (C : ℝ) (S : ℕ → ℕ → FV) (nb : ℕ) (hnb : 0 < nb)
    (h : ¬ (S 0 0).IsFinite) : ¬ (HmatFV C S nb 0 0).IsFinite := by
  unfold HmatFV
  rw [potLoop_closed _ _ _ nb le_rfl 0 0, if_pos ⟨hnb, hnb⟩, if_pos (le_refl 0)]
  exact FV.add_not_finite _ _ (Or.inr h)

/-! ## Lemmas: the V ≡ 0, nbasis = 1 scenario -/

theorem assemble_box_H00 :
    assemble 0 1 3 1 (Real.pi ^ 2 / 2) (fun _ => 0) 0 0 = Real.pi ^ 2 / 2 := by
  have h1 : corrNbasisN 1 = 1 := by decide
  unfold assemble
  rw [h1, Hmat_apply _ _ 1 0 0 Nat.one_pos Nat.one_pos, potS_zeroV]
  norm_num

theorem box1_contract (c : ℝ) (hc : c * c = 1) :
    IsEigenSolution 1 (assemble 0 1 3 1 (Real.pi ^ 2 / 2) (fun _ => 0))
      (fun _ => Real.pi ^ 2 / 2) (fun _ _ => c) := by
  refine ⟨fun _ _ _ _ => le_refl _, ?_, ?_, ?_⟩
  · intro j hj
    rw [Finset.sum_range_one, hc]
  · intro j j' hj hj' hne
    omega
  · intro j hj i hi
    have hi0 : i = 0 := by omega
    subst hi0
    rw [Finset.sum_range_one, assemble_box_H00]

/-! ## The claims -/

/-- Claim C1: for `i ≤ j < nbasis` the potential contribution to `H[i][j]`
is the composite Simpson integral (weights `1,4,2,…,4,1` scaled by `dx/3`)
of `φ_i(x-xmin) · V(x) · φ_j(x-xmin)` sampled at every grid node, and the
lower-triangle entry equals the upper one by mirroring. -/
theorem C1_potential_simpson (xmin xmax : ℝ) (ngrid nbasis : ℤ) (C : ℝ)
    (V : ℝ → ℝ) (i j : ℕ) (hij : i ≤ j) (hj : j < corrNbasisN nbasis) :
    assemble xmin xmax ngrid nbasis C V i j =
      (if i = j then C * ((i : ℝ) + 1) * ((i : ℝ) + 1) else 0) +
        specSimpson ((corrNgridN ngrid - 1) / 2)
          ((corrXmax xmin xmax - corrXmin xmin xmax) /
            (2 * ((((corrNgridN ngrid - 1) / 2 : ℕ)) : ℝ)))
          (potSample (corrXmin xmin xmax) (corrXmax xmin xmax)
            (corrNgridN ngrid) V i j) ∧
    assemble xmin xmax ngrid nbasis C V j i =
      assemble xmin xmax ngrid nbasis C V i j := by
  obtain ⟨hsplit, hm1⟩ := corrNgridN_eq ngrid
  have hab := corrXmin_lt_corrXmax xmin xmax
  have hi : i < corrNbasisN nbasis := Nat.lt_of_le_of_lt hij hj
  constructor
  · unfold assemble
    rw [Hmat_apply _ _ _ i j hi hj, if_pos hij]
    unfold potS
    set m := (corrNgridN ngrid - 1) / 2 with hmdef
    have hsplit2 : corrNgridN ngrid = 2 * m + 1 := by
      rw [hmdef]
      exact hsplit
    rw [hsplit2]
    congr 1
    exact scipySimps_eq_specSimpson _ _ m _ hab hm1
  · unfold assemble
    rw [Hmat_apply _ _ _ j i hj hi, Hmat_apply _ _ _ i j hi hj]
    by_cases h : i = j
    · subst h
      rfl
    · have h1 : ¬ j = i := fun hc => h hc.symm
      have h2 : ¬ j ≤ i := by omega
      rw [if_neg h, if_neg h1, if_pos hij, if_neg h2]

theorem C1_witness :
    (0 : ℕ) ≤ 0 ∧ 0 < corrNbasisN 1 ∧
    (assemble 0 1 3 1 0 (fun _ => 0) 0 0 =
        (if (0 : ℕ) = 0 then (0 : ℝ) * (((0 : ℕ) : ℝ) + 1) * (((0 : ℕ) : ℝ) + 1)
          else 0) +
          specSimpson ((corrNgridN 3 - 1) / 2)
            ((corrXmax 0 1 - corrXmin 0 1) /
              (2 * ((((corrNgridN 3 - 1) / 2 : ℕ)) : ℝ)))
            (potSample (corrXmin 0 1) (corrXmax 0 1) (corrNgridN 3)
              (fun _ => 0) 0 0) ∧
      assemble 0 1 3 1 0 (fun _ => 0) 0 0 = assemble 0 1 3 1 0 (fun _ => 0) 0 0) :=
  ⟨le_rfl, by decide,
    C1_potential_simpson 0 1 3 1 0 (fun _ => 0) 0 0 le_rfl (by decide)⟩

/-- Claim C2: after assembly the Hamiltonian is exactly symmetric,
`H[i][j] = H[j][i]` for all `i, j < nbasis` (exact equality of the
constructed values; the assembled matrix is a pure value that is never
mutated afterwards). -/
theorem C2_symmetric (xmin xmax : ℝ) (ngrid nbasis : ℤ) (C : ℝ) (V : ℝ → ℝ)
    (i j : ℕ) (hi : i < corrNbasisN nbasis) (hj : j < corrNbasisN nbasis) :
    assemble xmin xmax ngrid nbasis C V i j =
      assemble xmin xmax ngrid nbasis C V j i := by
  unfold assemble
  rw [Hmat_apply _ _ _ i j hi hj, Hmat_apply _ _ _ j i hj hi]
  rcases Nat.lt_trichotomy i j with h | h | h
  · rw [if_neg (by omega : ¬ i = j), if_neg (by omega : ¬ j = i),
      if_pos (by omega : i ≤ j), if_neg (by omega : ¬ j ≤ i)]
  · subst h
    rfl
  · rw [if_neg (by omega : ¬ i = j), if_neg (by omega : ¬ j = i),
      if_neg (by omega : ¬ i ≤ j), if_pos (by omega : j ≤ i)]

theorem C2_witness :
    assemble 0 1 3 2 0 (fun _ => 0) 0 1 = assemble 0 1 3 2 0 (fun _ => 0) 1 0 :=
  C2_symmetric 0 1 3 2 0 (fun _ => 0) 0 1 (by decide) (by decide)

/-- Claim C3: the corrections are total and deterministic, and the grid they
produce has exactly the corrected (odd, `≥ 3`) number of evenly spaced,
strictly increasing nodes, starting at the corrected `xmin` and ending at
the corrected `xmax`, with `xmax > xmin` after correction. -/
theorem C3_grid (xmin xmax : ℝ) (ngrid : ℤ) :
    corrXmin xmin xmax < corrXmax xmin xmax ∧
    Odd (corrNgridN ngrid) ∧ 3 ≤ corrNgridN ngrid ∧
    grid (corrXmin xmin xmax) (corrXmax xmin xmax) (corrNgridN ngrid) 0 =
      corrXmin xmin xmax ∧
    grid (corrXmin xmin xmax) (corrXmax xmin xmax) (corrNgridN ngrid)
      (corrNgridN ngrid - 1) = corrXmax xmin xmax ∧
    (∀ k : ℕ,
      grid (corrXmin xmin xmax) (corrXmax xmin xmax) (corrNgridN ngrid) (k + 1) -
        grid (corrXmin xmin xmax) (corrXmax xmin xmax) (corrNgridN ngrid) k =
      (corrXmax xmin xmax - corrXmin xmin xmax) / ((corrNgridN ngrid : ℝ) - 1)) ∧
    (∀ k l : ℕ, k < l → l < corrNgridN ngrid →
      grid (corrXmin xmin xmax) (corrXmax xmin xmax) (corrNgridN ngrid) k <
        grid (corrXmin xmin xmax) (corrXmax xmin xmax) (corrNgridN ngrid) l) := by
  have hab := corrXmin_lt_corrXmax xmin xmax
  have h3 := corrNgridN_ge_three ngrid
  exact ⟨hab, corrNgridN_odd ngrid, h3, grid_zero _ _ _,
    grid_last _ _ _ (by omega), fun k => grid_spacing _ _ _ k,
    fun k l hkl _ => grid_strictMono _ _ _ hab (by omega) k l hkl⟩

theorem C3_witness :
    corrXmin 5 2 < corrXmax 5 2 ∧ Odd (corrNgridN 6) ∧ 3 ≤ corrNgridN 6 ∧
    grid (corrXmin 5 2) (corrXmax 5 2) (corrNgridN 6) 0 = corrXmin 5 2 ∧
    grid (corrXmin 5 2) (corrXmax 5 2) (corrNgridN 6) (corrNgridN 6 - 1) =
      corrXmax 5 2 ∧
    grid (corrXmin 5 2) (corrXmax 5 2) (corrNgridN 6) 0 <
      grid (corrXmin 5 2) (corrXmax 5 2) (corrNgridN 6) 1 := by
  obtain ⟨h1, h2, h3, h4, h5, _, h7⟩ := C3_grid 5 2 6
  exact ⟨h1, h2, h3, h4, h5, h7 0 1 (by omega) (by omega)⟩

/-- Claim C4: with an arbitrary caller-supplied prefactor `C`, the kinetic
loop produces exactly `C·(i+1)²` on the diagonal and exactly zero off the
diagonal (no quadrature is involved). -/
theorem C4_kinetic_diagonal (C : ℝ) (nb i j : ℕ) (hi : i < nb) (hj : j < nb) :
    kineticLoop (fun t => C * ((t : ℝ) + 1) * ((t : ℝ) + 1)) nb
        (fun _ _ => 0) i j =
      if i = j then C * ((i : ℝ) + 1) ^ 2 else 0 := by
  rw [kineticLoop_closed]
  by_cases h : i = j
  · subst h
    rw [if_pos (⟨rfl, hi⟩ : i = i ∧ i < nb), if_pos (rfl : i = i)]
    show (0 : ℝ) + C * ((i : ℝ) + 1) * ((i : ℝ) + 1) = C * ((i : ℝ) + 1) ^ 2
    ring
  · simp [h]

theorem C4_witness :
    kineticLoop (fun t => (2 : ℝ) * ((t : ℝ) + 1) * ((t : ℝ) + 1)) 3
        (fun _ _ => 0) 1 1 =
      if (1 : ℕ) = 1 then (2 : ℝ) * (((1 : ℕ) : ℝ) + 1) ^ 2 else 0 :=
  C4_kinetic_diagonal 2 3 1 1 (by omega) (by omega)

/-- Claim C5: with `V ≡ 0` every potential matrix element integrates to
exactly zero, so any eigensolver output satisfying the contract returns
exactly the kinetic diagonal `C·(j+1)²` (ascending), for any positive
prefactor `C`. -/
theorem C5_zero_potential (xmin xmax : ℝ) (ngrid nbasis : ℤ) (C : ℝ)
    (evals : ℕ → ℝ) (evecs : ℕ → ℕ → ℝ) (hC : 0 < C)
    (hsol : IsEigenSolution (corrNbasisN nbasis)
      (assemble xmin xmax ngrid nbasis C (fun _ => 0)) evals evecs) :
    (∀ i j : ℕ, potS (corrXmin xmin xmax) (corrXmax xmin xmax)
        ((corrNgridN ngrid - 1) / 2) (fun _ => 0) i j = 0) ∧
    (∀ j, j < corrNbasisN nbasis → evals j = C * ((j : ℝ) + 1) ^ 2) := by
  refine ⟨fun i j => potS_zeroV _ _ _ i j, ?_⟩
  have hH : ∀ i j, i < corrNbasisN nbasis → j < corrNbasisN nbasis →
      assemble xmin xmax ngrid nbasis C (fun _ => 0) i j =
        if i = j then C * ((i : ℝ) + 1) * ((i : ℝ) + 1) else 0 := by
    intro i j hi hj
    unfold assemble
    rw [Hmat_apply _ _ _ i j hi hj, potS_zeroV, potS_zeroV]
    simp
  have hd : ∀ i i', i < i' → i' < corrNbasisN nbasis →
      C * ((i : ℝ) + 1) * ((i : ℝ) + 1) <
        C * ((i' : ℝ) + 1) * ((i' : ℝ) + 1) := by
    intro i i' hii _
    have hR : (i : ℝ) < (i' : ℝ) := by exact_mod_cast hii
    have h0 : (0 : ℝ) ≤ (i : ℝ) := Nat.cast_nonneg i
    have h2 : (i : ℝ) + 1 < (i' : ℝ) + 1 := by linarith
    have key : ((i : ℝ) + 1) * ((i : ℝ) + 1) < ((i' : ℝ) + 1) * ((i' : ℝ) + 1) :=
      mul_lt_mul'' h2 h2 (by linarith) (by linarith)
    calc C * ((i : ℝ) + 1) * ((i : ℝ) + 1)
        = C * (((i : ℝ) + 1) * ((i : ℝ) + 1)) := by ring
      _ < C * (((i' : ℝ) + 1) * ((i' : ℝ) + 1)) := by
          exact mul_lt_mul_of_pos_left key hC
      _ = C * ((i' : ℝ) + 1) * ((i' : ℝ) + 1) := by ring
  intro j hj
  have hev := eigen_of_diagonal (corrNbasisN nbasis) _ _ hH hd evals evecs hsol j hj
  rw [hev]
  ring

theorem C5_witness :
    (0 : ℝ) < Real.pi ^ 2 / 2 ∧
    ((∀ i j : ℕ, potS (corrXmin 0 1) (corrXmax 0 1) ((corrNgridN 3 - 1) / 2)
        (fun _ => 0) i j = 0) ∧
      (∀ j, j < corrNbasisN 1 →
        (fun _ => Real.pi ^ 2 / 2 : ℕ → ℝ) j = Real.pi ^ 2 / 2 * ((j : ℝ) + 1) ^ 2)) :=
  ⟨by positivity,
    C5_zero_potential 0 1 3 1 (Real.pi ^ 2 / 2) _ _ (by positivity)
      (box1_contract 1 (by norm_num))⟩

/-- Claim C6 counterexample: in the scenario `xmin=0, xmax=1, ngrid=3,
nbasis=1, V ≡ 0, C = π²/2`, the eigensolver contract admits the output
with eigenvector entry `-1`, so the eigenvector matrix is not necessarily
`[1.0]` as the claim states. -/
theorem C6_counterexample :
    IsEigenSolution 1 (assemble 0 1 3 1 (Real.pi ^ 2 / 2) (fun _ => 0))
      (fun _ => Real.pi ^ 2 / 2) (fun _ _ => -1) ∧
    ((fun _ _ => (-1 : ℝ)) 0 0 ≠ 1) :=
  ⟨box1_contract (-1) (by norm_num), by norm_num⟩

/-- Claim C6 (amended): in the scenario `xmin=0, xmax=1, ngrid=3, nbasis=1,
V ≡ 0, C = π²/2`, the pipeline produces the single eigenvalue `π²/2`, and
the single eigenvector entry is `±1` (unit norm; the sign is not fixed by
the eigensolver contract). -/
theorem C6_box_scenario (evals : ℕ → ℝ) (evecs : ℕ → ℕ → ℝ)
    (hsol : IsEigenSolution 1 (assemble 0 1 3 1 (Real.pi ^ 2 / 2) (fun _ => 0))
      evals evecs) :
    evals 0 = Real.pi ^ 2 / 2 ∧ (evecs 0 0 = 1 ∨ evecs 0 0 = -1) := by
  obtain ⟨hasc, hnorm, horth, heig⟩ := hsol
  have hn := hnorm 0 Nat.one_pos
  rw [Finset.sum_range_one] at hn
  have hv : evecs 0 0 = 1 ∨ evecs 0 0 = -1 := mul_self_eq_one_iff.mp hn
  have he := heig 0 Nat.one_pos 0 Nat.one_pos
  rw [Finset.sum_range_one, assemble_box_H00] at he
  have hvne : evecs 0 0 ≠ 0 := by
    rcases hv with h | h <;> rw [h] <;> norm_num
  exact ⟨(mul_right_cancel₀ hvne he).symm, hv⟩

theorem C6_witness :
    (fun _ => Real.pi ^ 2 / 2 : ℕ → ℝ) 0 = Real.pi ^ 2 / 2 ∧
      ((fun _ _ => (1 : ℝ)) 0 0 = 1 ∨ (fun _ _ => (1 : ℝ)) 0 0 = -1) :=
  C6_box_scenario _ _ (box1_contract 1 (by norm_num))

/-- Claim C7: if the potential returns a non-finite value at a grid node
sampled during quadrature (given the spec's contract that the eigensolver
rejects non-finite input), or the eigendecomposition fails to converge,
the run ends in a `NumericalError` and no output is emitted. -/
theorem C7_error_aborts (solver : SolverFV) (xmin xmax : ℝ)
    (ngrid nbasis : ℤ) (C : ℝ) (V : ℝ → FV)
    (hcheck : ChecksFinite (corrNbasisN nbasis) solver)
    (hfail : (∃ k, k < corrNgridN ngrid ∧
        ¬ (V (grid (corrXmin xmin xmax) (corrXmax xmin xmax)
            (corrNgridN ngrid) k)).IsFinite) ∨
      solver (assembleFV xmin xmax ngrid nbasis C V) =
        Except.error NumericalError.noConvergence) :
    ∃ e : NumericalError,
      runFV solver xmin xmax ngrid nbasis C V = Except.error e := by
  obtain ⟨hsplit, hm1⟩ := corrNgridN_eq ngrid
  rcases hfail with ⟨k, hk, hV⟩ | hconv
  · refine ⟨NumericalError.nonFiniteInput, ?_⟩
    have hnb := corrNbasisN_ge_one nbasis
    rw [hsplit] at hk hV
    have hentry : ¬ ((assembleFV xmin xmax ngrid nbasis C V) 0 0).IsFinite := by
      unfold assembleFV
      apply HmatFV_not_finite _ _ _ (by omega)
      exact potSFV_not_finite _ _ _ V 0 0 k hm1 hk hV
    have hsolver := hcheck (assembleFV xmin xmax ngrid nbasis C V)
      ⟨0, 0, by omega, by omega, hentry⟩
    unfold runFV
    rw [hsolver]
  · refine ⟨NumericalError.noConvergence, ?_⟩
    unfold runFV
    rw [hconv]

theorem C7_witness :
    ChecksFinite (corrNbasisN 1)
      (fun _ => Except.error NumericalError.nonFiniteInput) ∧
    ∃ e : NumericalError,
      runFV (fun _ => Except.error NumericalError.nonFiniteInput) 0 1 3 1 0
        (fun _ => FV.nonfin) = Except.error e := by
  have hc : ChecksFinite (corrNbasisN 1)
      (fun _ => Except.error NumericalError.nonFiniteInput) := fun _ _ => rfl
  exact ⟨hc, C7_error_aborts _ 0 1 3 1 0 (fun _ => FV.nonfin) hc
    (Or.inl ⟨0, by decide, by simp [FV.IsFinite]⟩)⟩

/-- Claim C8: two runs of the pipeline with identical configurations and the
same deterministic potential produce identical eigenvalues and eigenvector
matrices (exact equality, which subsumes equality up to per-column sign and
degenerate reordering). -/
theorem C8_idempotent (solver : (ℕ → ℕ → ℝ) → (ℕ → ℝ) × (ℕ → ℕ → ℝ))
    (xmin1 xmax1 : ℝ) (ngrid1 nbasis1 : ℤ) (Ca : ℝ) (V1 : ℝ → ℝ)
    (xmin2 xmax2 : ℝ) (ngrid2 nbasis2 : ℤ) (Cb : ℝ) (V2 : ℝ → ℝ)
    (h1 : xmin1 = xmin2) (h2 : xmax1 = xmax2) (h3 : ngrid1 = ngrid2)
    (h4 : nbasis1 = nbasis2) (h5 : Ca = Cb) (h6 : V1 = V2) :
    runR solver xmin1 xmax1 ngrid1 nbasis1 Ca V1 =
      runR solver xmin2 xmax2 ngrid2 nbasis2 Cb V2 := by
  subst h1 h2 h3 h4 h5 h6
  rfl

theorem C8_witness :
    runR (fun _ => (fun _ => 0, fun _ _ => 0)) 0 1 3 1 0 (fun _ => 0) =
      runR (fun _ => (fun _ => 0, fun _ _ => 0)) 0 1 3 1 0 (fun _ => 0) :=
  C8_idempotent _ 0 1 3 1 0 (fun _ => 0) 0 1 3 1 0 (fun _ => 0)
    rfl rfl rfl rfl rfl rfl

/-- Claim C9: `pib(x, n, L)` does not depend on its third argument `L`; the
body uses the module-level `tl` and `pixl` computed from the corrected
global bounds. -/
theorem C9_pib_ignores_L (xmin xmax x n L1 L2 : ℝ) :
    pib xmin xmax x n L1 = pib xmin xmax x n L2 := rfl

theorem C9_witness : pib 0 1 2 3 4 = pib 0 1 2 3 5 :=
  C9_pib_ignores_L 0 1 2 3 4 5

/-- Claim C10: any integer `nbasis`, including zero and negative values, is
silently replaced by `max(1, nbasis)`, so the matrix dimension is at least
one and the run completes. -/
theorem C10_nbasis_floor (nbasis : ℤ) :
    1 ≤ corrNbasisN nbasis ∧ (nbasis ≤ 0 → corrNbasisN nbasis = 1) ∧
      (1 ≤ nbasis → (corrNbasisN nbasis : ℤ) = nbasis) := by
  unfold corrNbasisN corrNbasis
  refine ⟨?_, fun h => ?_, fun h => ?_⟩ <;> omega

theorem C10_witness : 1 ≤ corrNbasisN (-4) ∧ corrNbasisN (-4) = 1 :=
  ⟨(C10_nbasis_floor (-4)).1, (C10_nbasis_floor (-4)).2.1 (by norm_num)⟩

end PIB

